import Mathlib

/-!
# Verification of the `intent` listwise reranker

A shallow embedding of the batching-and-ranking engine of the `intent`
TypeScript repository, together with proofs of the specified properties.

Embedding conventions:
* JavaScript numeric score values are modelled by `JsVal`: finite numbers as
  rationals, plus `NaN`, `+Infinity`, `-Infinity` and `undefined` (the value
  of a missing object property).  The JS `<` comparison, which is `false`
  whenever an operand is `NaN`/`undefined`, is `jsLt`.
* Rejected promises and thrown exceptions are both modelled by `Except`:
  a function that can throw returns `Except E _`.
* JS `Array.prototype.sort` with the reranker's comparator is modelled by
  `List.insertionSort` over the total order induced by the comparator
  (descending score, ties by ascending index); because the comparator is
  antisymmetric on elements with distinct indices, every comparison sort
  produces this unique order, so the choice of algorithm is immaterial.
-/

namespace Intent

/-- A JavaScript value that can appear as a score: a finite number, `NaN`,
`+Infinity`, `-Infinity`, or `undefined` (missing property). -/
inductive JsVal where
  | num (q : ℚ)
  | nan
  | inf
  | negInf
  | undef
deriving DecidableEq, Repr

/-- JavaScript `<` on score values: numeric comparison, with every comparison
involving `NaN` or `undefined` (which coerces to `NaN`) being `false`. -/
def jsLt : JsVal → JsVal → Bool
  | .num a, .num b => a < b
  | .num _, .inf => true
  | .negInf, .num _ => true
  | .negInf, .inf => true
  | _, _ => false

/-- `clamp` from `src/lib/number.ts`, specialised to numeric bounds (the
reranker always calls it as `clamp(v, 0, 10)`):
`let out = n; if (out < min) out = min; if (out > max) out = max; return out`.
JS `out > max` is `max < out`.  Note that for `n = undefined` or `NaN` both
comparisons are `false`, so the value is returned unchanged. -/
def clamp (n : JsVal) (lo hi : ℚ) : JsVal :=
  let out := if jsLt n (.num lo) then JsVal.num lo else n
  if jsLt (.num hi) out then JsVal.num hi else out

/-- A prepared candidate (`prepareCandidates` output): original item, original
global input index, extracted base key and summary. -/
structure Prepared (T : Type) where
  item : T
  idx : ℕ
  baseKey : String
  summary : String
deriving DecidableEq, Repr

/-- A disambiguated candidate (`ensureUniqueKeys` output). -/
structure Keyed (T : Type) where
  item : T
  idx : ℕ
  key : String
  summary : String
deriving DecidableEq, Repr

/-- A scored candidate (the intermediate `scored` array in `rankAndFilter`);
the score is a raw JS value produced by `clamp`. -/
structure Scored (T : Type) where
  item : T
  idx : ℕ
  score : JsVal
deriving DecidableEq, Repr

/-- A scored candidate whose score is known to be a finite number (every
candidate surviving the strict `score > threshold` filter is of this form). -/
structure Ranked (T : Type) where
  item : T
  idx : ℕ
  score : ℚ
deriving DecidableEq, Repr

/-! ## `src/batches.ts` -/

/-- `sliceIntoFixedBatches(items, size)`: consecutive chunks of length `size`,
the last possibly shorter.  The source loop `for (i = 0; i < n; i += size)`
requires `size ≥ 1` to make progress; for `size = 0` we return `[]`. -/
def sliceIntoFixedBatches (items : List T) (size : ℕ) : List (List T) :=
  match items, size with
  | [], _ => []
  | _ :: _, 0 => []
  | x :: rest, s + 1 =>
      (x :: rest).take (s + 1) :: sliceIntoFixedBatches ((x :: rest).drop (s + 1)) (s + 1)
termination_by items.length
decreasing_by simp; omega

/-- `mergeTinyFinalBatch(batches, tinyThreshold)`: when there are at least two
batches and the last is non-empty and of length at most the threshold, it is
concatenated onto the second-to-last batch and popped. -/
def mergeTinyFinalBatch (batches : List (List T)) (tiny : ℕ) : List (List T) :=
  if batches.length < 2 then batches
  else
    let last := batches.getLast?.getD []
    if last.length = 0 ∨ last.length > tiny then batches
    else batches.dropLast.dropLast ++ [batches.dropLast.getLast?.getD [] ++ last]

/-- `createBatches(items, size, tinyFraction)`: slice then merge a tiny tail,
with `tinyThreshold = Math.ceil(tinyFraction * size)` (for the specified range
`tinyFraction ∈ [0,1]` the integer ceiling is non-negative, so `Int.toNat` is
exact). -/
def createBatches (items : List T) (size : ℕ) (tinyFraction : ℚ) : List (List T) :=
  let batches := sliceIntoFixedBatches items size
  let tinyThreshold := (Int.ceil (tinyFraction * size)).toNat
  mergeTinyFinalBatch batches tinyThreshold

/-- The per-batch task of `batchProcess` (the lambda inside `Promise.all`):
run `fn`, and on rejection substitute the `onError` fallback. -/
def batchContrib (fn : List I → Except E (List O)) (onError : List I → E → List O)
    (b : List I) : List O :=
  match fn b with
  | .ok r => r
  | .error e => onError b e

/-- `batchProcess(items, size, tinyFraction, fn, logger, onError)`: partition,
process every batch (isolating failures via `batchContrib`), and flatten in
batch order.  `Promise.all` preserves the association of results to batches,
so completion order is irrelevant to the value. -/
def batchProcess (items : List I) (size : ℕ) (tinyFraction : ℚ)
    (fn : List I → Except E (List O)) (onError : List I → E → List O) : List O :=
  ((createBatches items size tinyFraction).map (batchContrib fn onError)).flatten

/-! ## `src/reranker.ts` -/

/-- The disambiguated-key builder: the n-th occurrence (n ≥ 2) of a base key
within a batch becomes `"{baseKey} ({idx})"` with the candidate's original
global index. -/
def rename (b : String) (i : ℕ) : String := b ++ " (" ++ toString i ++ ")"

/-- The loop of `Reranker.ensureUniqueKeys`, with the mutable
`Map<string, number>` of occurrence counts made explicit. -/
def ensureUniqueKeysGo (counts : String → ℕ) : List (Prepared T) → List (Keyed T)
  | [] => []
  | c :: rest =>
      let n := counts c.baseKey + 1
      let key := if n = 1 then c.baseKey else rename c.baseKey c.idx
      ⟨c.item, c.idx, key, c.summary⟩ ::
        ensureUniqueKeysGo (fun s => if s = c.baseKey then n else counts s) rest

/-- `Reranker.ensureUniqueKeys`: per-batch key disambiguation. -/
def ensureUniqueKeys (batch : List (Prepared T)) : List (Keyed T) :=
  ensureUniqueKeysGo (fun _ => 0) batch

/-- The `scored` array built inside `Reranker.rankAndFilter`:
`{ item, idx, score: clamp(scores[key], 0, 10) }` for each candidate.  A key
absent from the score object reads as `undefined`. -/
def resolveScores (items : List (Keyed T)) (scores : String → JsVal) : List (Scored T) :=
  items.map (fun c => ⟨c.item, c.idx, clamp (scores c.key) 0 10⟩)

/-- The filter predicate of `rankAndFilter`: JS `score > threshold`,
i.e. `threshold < score`, which is `false` for `NaN`/`undefined` scores. -/
def keepScore (threshold : ℚ) (s : Scored T) : Bool := jsLt (.num threshold) s.score

/-- Read the finite numeric value of a score.  Every element surviving
`keepScore` has a `num` score (`filter_keepScore_num` below), so the default
`0` branch is never reached on filtered lists. -/
def scoreVal : JsVal → ℚ
  | .num q => q
  | _ => 0

/-- Repackage a filtered candidate with its (necessarily finite) score. -/
def toRanked (s : Scored T) : Ranked T := ⟨s.item, s.idx, scoreVal s.score⟩

/-- The total order induced by the comparator
`(a, b) => b.score !== a.score ? b.score - a.score : a.idx - b.idx`:
`a` precedes `b` when `a` has the larger score, or equal scores and
`a.idx ≤ b.idx`. -/
def rankRel (a b : Ranked T) : Prop :=
  b.score < a.score ∨ (a.score = b.score ∧ a.idx ≤ b.idx)

instance : DecidableRel (rankRel (T := T)) := fun a b =>
  inferInstanceAs (Decidable (b.score < a.score ∨ (a.score = b.score ∧ a.idx ≤ b.idx)))

instance : IsTotal (Ranked T) rankRel where
  total a b := by
    unfold rankRel
    rcases lt_trichotomy a.score b.score with h | h | h
    · exact Or.inr (Or.inl h)
    · rcases le_total a.idx b.idx with hi | hi
      · exact Or.inl (Or.inr ⟨h, hi⟩)
      · exact Or.inr (Or.inr ⟨h.symm, hi⟩)
    · exact Or.inl (Or.inl h)

instance : IsTrans (Ranked T) rankRel where
  trans a b c hab hbc := by
    unfold rankRel at *
    rcases hab with h1 | ⟨e1, i1⟩ <;> rcases hbc with h2 | ⟨e2, i2⟩
    · exact Or.inl (h1.trans' h2)
    · exact Or.inl (e2 ▸ h1)
    · exact Or.inl (by rw [e1]; exact h2)
    · exact Or.inr ⟨e1.trans e2, i1.trans i2⟩

/-- `Reranker.rankAndFilter` up to (but not including) the final projection to
items: resolve and clamp scores, filter strictly above the threshold, and sort
by the comparator's order. -/
def rankAndFilterScored (items : List (Keyed T)) (scores : String → JsVal)
    (threshold : ℚ) : List (Ranked T) :=
  List.insertionSort rankRel
    (((resolveScores items scores).filter (keepScore threshold)).map toRanked)

/-- `Reranker.rankAndFilter`: threshold filtering and stable descending sort,
returning the underlying items. -/
def rankAndFilter (items : List (Keyed T)) (scores : String → JsVal)
    (threshold : ℚ) : List T :=
  (rankAndFilterScored items scores threshold).map (·.item)

/-- The payload an LLM call resolves with, as classified by the guard in
`Reranker.fetchScores`: `data == null`, a non-object primitive, or any
non-null object (including `{}` and arrays) read as a key → value map with
absent properties reading `undefined`. -/
inductive LlmPayload where
  | nullish
  | nonObject
  | obj (m : String → JsVal)

/-- A scoring client behaviour for one `rerank` call: from the query and the
disambiguated batch (which determine the messages and schema sent), either a
thrown/rejected error or a resolved payload. -/
def LlmBehavior (T E : Type) := String → List (Keyed T) → Except E LlmPayload

/-- `Reranker.fetchScores`: call the client; a nullish or non-object payload
yields `none` (fall back to original order), any object is accepted. -/
def fetchScores (llm : LlmBehavior T E) (query : String) (keyed : List (Keyed T)) :
    Except E (Option (String → JsVal)) :=
  match llm query keyed with
  | .error e => .error e
  | .ok .nullish => .ok none
  | .ok .nonObject => .ok none
  | .ok (.obj m) => .ok (some m)

/-- `Reranker.processBatch`: disambiguate keys, fetch scores (errors
propagate to `batchProcess`), fall back to original order on an invalid
payload, otherwise rank and filter. -/
def processBatch (llm : LlmBehavior T E) (threshold : ℚ) (query : String)
    (batch : List (Prepared T)) : Except E (List T) :=
  let keyed := ensureUniqueKeys batch
  match fetchScores llm query keyed with
  | .error e => .error e
  | .ok none => .ok (keyed.map (·.item))
  | .ok (some scores) => .ok (rankAndFilter keyed scores threshold)

/-- The caller-supplied extractor pair.  Each extractor may throw (modelled by
`Except`); the summary extractor is optional (`summary?.(item) ?? ""`). -/
structure Extractors (T E : Type) where
  key : T → Except E String
  summary : Option (T → Except E String)

/-- The loop of `Reranker.prepareCandidates`, carrying the running index.
For each candidate, `extractors.key(item)` runs first, then
`extractors.summary?.(item) ?? ""`; the first thrown error aborts the map. -/
def prepareGo (ex : Extractors T E) : ℕ → List T → Except E (List (Prepared T))
  | _, [] => .ok []
  | i, c :: rest =>
    match ex.key c with
    | .error e => .error e
    | .ok k =>
      match (match ex.summary with
             | none => (.ok "" : Except E String)
             | some f => f c) with
      | .error e => .error e
      | .ok s =>
        match prepareGo ex (i + 1) rest with
        | .error e => .error e
        | .ok r => .ok (⟨c, i, k, s⟩ :: r)

/-- `Reranker.prepareCandidates`: wrap each candidate with its original index
and extracted key/summary; a throwing extractor aborts preparation. -/
def prepareCandidates (ex : Extractors T E) (cands : List T) :
    Except E (List (Prepared T)) :=
  prepareGo ex 0 cands

/-- The reranker configuration fields relevant to a call (already validated at
construction: `RELEVANCY_THRESHOLD ∈ [0,10]`, `BATCH_SIZE ≥ 1`). -/
structure RerankerCfg where
  threshold : ℚ
  batchSize : ℕ
  tinyFraction : ℚ

/-- The body of the `try` block of `Reranker.rerank`: fast paths for 0/1
candidates, then prepare and batch-process.  An error value is an exception
escaping the normal path (e.g. a throwing extractor). -/
def rerankBody (ex : Extractors T E) (llm : LlmBehavior T E) (cfg : RerankerCfg)
    (query : String) (cands : List T) : Except E (List T) :=
  if cands.length = 0 then .ok []
  else if cands.length = 1 then .ok cands
  else do
    let prepared ← prepareCandidates ex cands
    pure (batchProcess prepared cfg.batchSize cfg.tinyFraction
      (processBatch llm cfg.threshold query)
      (fun b _ => b.map (·.item)))

/-- `Reranker.rerank`: the body wrapped in the top-level `try`/`catch`, whose
`catch` returns the original candidate array.  The result is a total function
of the inputs: the promise always resolves. -/
def rerank (ex : Extractors T E) (llm : LlmBehavior T E) (cfg : RerankerCfg)
    (query : String) (cands : List T) : List T :=
  match rerankBody ex llm cfg query cands with
  | .ok r => r
  | .error _ => cands

/-! ## Lemmas about the batch partitioner -/

theorem sliceIntoFixedBatches_flatten (items : List T) (s : ℕ) :
    (sliceIntoFixedBatches items (s + 1)).flatten = items := by
  have H : ∀ (l : List T) (size : ℕ), 1 ≤ size →
      (sliceIntoFixedBatches l size).flatten = l := by
    intro l size
    induction l, size using sliceIntoFixedBatches.induct with
    | case1 size => intro _; simp [sliceIntoFixedBatches]
    | case2 x rest => intro h; omega
    | case3 x rest s ih =>
      intro _
      simp only [sliceIntoFixedBatches, List.flatten_cons]
      rw [ih (by omega)]
      exact List.take_append_drop _ _
  exact H items (s + 1) (by omega)

theorem sliceIntoFixedBatches_eq_nil_iff (items : List T) (s : ℕ) :
    sliceIntoFixedBatches items (s + 1) = [] ↔ items = [] := by
  constructor
  · intro h
    cases items with
    | nil => rfl
    | cons x rest => simp [sliceIntoFixedBatches] at h
  · intro h; subst h; simp [sliceIntoFixedBatches]

theorem sliceIntoFixedBatches_length (items : List T) (s : ℕ) :
    (sliceIntoFixedBatches items (s + 1)).length = (items.length + s) / (s + 1) := by
  have H : ∀ (l : List T) (size : ℕ), 1 ≤ size →
      (sliceIntoFixedBatches l size).length = (l.length + (size - 1)) / size := by
    intro l size
    induction l, size using sliceIntoFixedBatches.induct with
    | case1 size =>
      intro h
      have : size - 1 < size := by omega
      simp [sliceIntoFixedBatches, Nat.div_eq_of_lt this]
    | case2 x rest => intro h; omega
    | case3 x rest s ih =>
      intro _
      simp only [sliceIntoFixedBatches, List.length_cons]
      rw [ih (by omega)]
      simp only [List.length_drop, List.length_cons, Nat.succ_eq_add_one, Nat.add_sub_cancel]
      rcases le_or_lt (rest.length + 1) (s + 1) with hle | hlt
      · have h1 : rest.length + 1 - (s + 1) = 0 := by omega
        have h2 : (rest.length + 1 + s) / (s + 1) = 1 :=
          Nat.div_eq_of_lt_le (by omega) (by omega)
        rw [h1, h2]
        simp [Nat.div_eq_of_lt (show s < s + 1 by omega)]
      · have h1 : rest.length + 1 + s = (rest.length + 1 - (s + 1) + s) + (s + 1) := by omega
        rw [h1, Nat.add_div_right _ (by omega)]
  rw [H items (s + 1) (by omega)]
  simp

theorem sliceIntoFixedBatches_sizes (items : List T) (s : ℕ) :
    ∀ i b, (sliceIntoFixedBatches items (s + 1))[i]? = some b →
      b.length ≤ s + 1 ∧
      (i + 1 < (sliceIntoFixedBatches items (s + 1)).length → b.length = s + 1) := by
  have H : ∀ (l : List T) (size : ℕ), 1 ≤ size →
      ∀ i b, (sliceIntoFixedBatches l size)[i]? = some b →
        b.length ≤ size ∧
        (i + 1 < (sliceIntoFixedBatches l size).length → b.length = size) := by
    intro l size
    induction l, size using sliceIntoFixedBatches.induct with
    | case1 size => intro _ i b hb; simp [sliceIntoFixedBatches] at hb
    | case2 x rest => intro h; omega
    | case3 x rest s ih =>
      intro _ i b hb
      simp only [sliceIntoFixedBatches] at hb ⊢
      match i with
      | 0 =>
        simp only [List.getElem?_cons_zero, Option.some.injEq] at hb
        subst hb
        refine ⟨by simp, ?_⟩
        intro hlen
        simp only [List.length_cons] at hlen
        have hne : sliceIntoFixedBatches ((x :: rest).drop (s + 1)) (s + 1) ≠ [] := by
          intro hnil
          rw [hnil] at hlen
          simp at hlen
        have : (x :: rest).drop (s + 1) ≠ [] := by
          intro hnil
          exact hne ((sliceIntoFixedBatches_eq_nil_iff _ _).mpr hnil)
        have hlong : s + 1 < (x :: rest).length := by
          by_contra hc
          exact this (List.drop_eq_nil_of_le (by omega))
        simp only [List.length_cons] at hlong
        simp [List.length_take]
        omega
      | i + 1 =>
        simp only [List.getElem?_cons_succ] at hb
        have := ih (by omega) i b hb
        refine ⟨this.1, ?_⟩
        intro hlen
        simp only [List.length_cons] at hlen
        exact this.2 (by omega)
  exact H items (s + 1) (by omega)

/-! ## Lemmas about the tiny-batch merge -/

theorem exists_concat_two (l : List α) (h : 2 ≤ l.length) :
    ∃ xs p q, l = xs ++ [p, q] := by
  match hr : l.reverse with
  | [] =>
    exfalso
    have hl0 : l.length = 0 := by rw [← List.length_reverse l, hr]; rfl
    omega
  | [a] =>
    exfalso
    have hl1 : l.length = 1 := by rw [← List.length_reverse l, hr]; rfl
    omega
  | a :: b :: tl =>
    refine ⟨tl.reverse, b, a, ?_⟩
    have hl : l = l.reverse.reverse := l.reverse_reverse.symm
    rw [hl, hr]
    simp

theorem mergeTinyFinalBatch_of_short (bs : List (List T)) (t : ℕ) (h : bs.length < 2) :
    mergeTinyFinalBatch bs t = bs := by
  simp only [mergeTinyFinalBatch]
  rw [if_pos h]

theorem mergeTinyFinalBatch_concat_two (xs : List (List T)) (p q : List T) (t : ℕ) :
    mergeTinyFinalBatch (xs ++ [p, q]) t =
      if q.length = 0 ∨ q.length > t then xs ++ [p, q] else xs ++ [p ++ q] := by
  have h2 : xs ++ [p, q] = (xs ++ [p]) ++ [q] := by simp
  have hlen : ¬ (xs ++ [p, q]).length < 2 := by simp
  have hg : (xs ++ [p, q]).getLast? = some q := by rw [h2]; exact List.getLast?_concat _
  have hd : (xs ++ [p, q]).dropLast = xs ++ [p] := by rw [h2]; exact List.dropLast_concat
  simp only [mergeTinyFinalBatch]
  rw [if_neg hlen, hg, hd, List.dropLast_concat, List.getLast?_concat]
  simp only [Option.getD_some]

theorem mergeTinyFinalBatch_flatten (bs : List (List T)) (t : ℕ) :
    (mergeTinyFinalBatch bs t).flatten = bs.flatten := by
  rcases lt_or_le bs.length 2 with h | h
  · rw [mergeTinyFinalBatch_of_short bs t h]
  · obtain ⟨xs, p, q, rfl⟩ := exists_concat_two bs h
    rw [mergeTinyFinalBatch_concat_two]
    split <;> simp

theorem createBatches_flatten (items : List T) (s : ℕ) (f : ℚ) (hs : 1 ≤ s) :
    (createBatches items s f).flatten = items := by
  obtain ⟨s, rfl⟩ : ∃ s', s = s' + 1 := ⟨s - 1, by omega⟩
  unfold createBatches
  rw [mergeTinyFinalBatch_flatten, sliceIntoFixedBatches_flatten]

/-! ## Lemmas about key disambiguation -/

theorem ensureUniqueKeysGo_forall2 (counts : String → ℕ) (batch : List (Prepared T)) :
    List.Forall₂
      (fun c k => k.item = c.item ∧ k.idx = c.idx ∧ k.summary = c.summary ∧
        (k.key = c.baseKey ∨ k.key = rename c.baseKey c.idx))
      batch (ensureUniqueKeysGo counts batch) := by
  induction batch generalizing counts with
  | nil => exact List.Forall₂.nil
  | cons c rest ih =>
    simp only [ensureUniqueKeysGo]
    refine List.Forall₂.cons ⟨rfl, rfl, rfl, ?_⟩ (ih _)
    by_cases h : counts c.baseKey + 1 = 1 <;> simp [h]

theorem ensureUniqueKeysGo_map_idx (counts : String → ℕ) (batch : List (Prepared T)) :
    (ensureUniqueKeysGo counts batch).map (·.idx) = batch.map (·.idx) := by
  induction batch generalizing counts with
  | nil => rfl
  | cons c rest ih => simp only [ensureUniqueKeysGo, List.map_cons, ih]

theorem ensureUniqueKeys_map_idx (batch : List (Prepared T)) :
    (ensureUniqueKeys batch).map (·.idx) = batch.map (·.idx) :=
  ensureUniqueKeysGo_map_idx _ batch

/-- Positional description of the disambiguation loop: the key assigned at
position `p` is the base key when no earlier element of the batch (and no
occurrence in the running counts) shares it, and the rename otherwise. -/
theorem ensureUniqueKeysGo_getElem (counts : String → ℕ) (batch : List (Prepared T))
    (p : ℕ) :
    (ensureUniqueKeysGo counts batch)[p]? = (batch[p]?).map (fun c =>
      ⟨c.item, c.idx,
        if counts c.baseKey + (batch.take p).countP (fun d => decide (d.baseKey = c.baseKey)) = 0
        then c.baseKey else rename c.baseKey c.idx,
        c.summary⟩) := by
  induction batch generalizing counts p with
  | nil => simp [ensureUniqueKeysGo]
  | cons c rest ih =>
    match p with
    | 0 =>
      simp only [ensureUniqueKeysGo, List.getElem?_cons_zero, List.take_zero,
        List.countP_nil, Option.map_some, Nat.add_zero]
      by_cases h : counts c.baseKey = 0 <;> simp [h]
    | p + 1 =>
      simp only [ensureUniqueKeysGo, List.getElem?_cons_succ, List.take_succ_cons]
      rw [ih]
      cases hc : rest[p]? with
      | none => rfl
      | some c2 =>
        simp only [Option.map_some', Option.some.injEq]
        have hcount : (if c2.baseKey = c.baseKey then counts c.baseKey + 1 else counts c2.baseKey)
              + (rest.take p).countP (fun d => decide (d.baseKey = c2.baseKey))
            = counts c2.baseKey
              + (c :: rest.take p).countP (fun d => decide (d.baseKey = c2.baseKey)) := by
          rw [List.countP_cons]
          by_cases hbk : c2.baseKey = c.baseKey
          · rw [hbk]
            simp
            omega
          · have hbk2 : ¬ (c.baseKey = c2.baseKey) := fun h => hbk h.symm
            simp only [if_neg hbk, decide_eq_true_eq]
            rw [if_neg hbk2]
            omega
        rw [hcount]

theorem ensureUniqueKeys_getElem (batch : List (Prepared T)) (p : ℕ) :
    (ensureUniqueKeys batch)[p]? = (batch[p]?).map (fun c =>
      ⟨c.item, c.idx,
        if (batch.take p).countP (fun d => decide (d.baseKey = c.baseKey)) = 0
        then c.baseKey else rename c.baseKey c.idx,
        c.summary⟩) := by
  have := ensureUniqueKeysGo_getElem (fun _ => 0) batch p
  simpa using this

/-! ## Lemmas about scoring and ranking -/

/-- `clamp` with numeric bounds never produces an infinity: `+Infinity` is
cut to the upper bound and `-Infinity` raised to the lower bound. -/
theorem clamp_ne_inf (v : JsVal) (lo hi : ℚ) :
    clamp v lo hi ≠ .inf ∧ clamp v lo hi ≠ .negInf := by
  cases v <;> simp only [clamp, jsLt] <;> constructor <;>
    (intro h; split at h <;> simp_all <;> split at h <;> simp_all)

/-- A successful JS `threshold < score` comparison forces the score to be a
finite number above the threshold or `+Infinity`. -/
theorem jsLt_num_true (t : ℚ) (v : JsVal) (h : jsLt (.num t) v = true) :
    v = .inf ∨ ∃ q, v = .num q ∧ t < q := by
  cases v <;> simp [jsLt] at h ⊢ <;> exact h

/-- Every element kept by the filter of `rankAndFilter` carries a finite
numeric clamped score strictly above the threshold. -/
theorem filter_keepScore_num (items : List (Keyed T)) (scores : String → JsVal) (t : ℚ) :
    ∀ s ∈ (resolveScores items scores).filter (keepScore t),
      ∃ q, s.score = .num q ∧ t < q := by
  intro s hs
  have hmem := List.mem_of_mem_filter hs
  have hkeep := List.of_mem_filter hs
  simp only [resolveScores, List.mem_map] at hmem
  obtain ⟨c, _, rfl⟩ := hmem
  simp only [keepScore] at hkeep
  rcases jsLt_num_true t _ hkeep with hinf | h
  · exact absurd hinf (clamp_ne_inf _ _ _).1
  · exact h

theorem resolveScores_map_idx (items : List (Keyed T)) (scores : String → JsVal) :
    (resolveScores items scores).map (·.idx) = items.map (·.idx) := by
  simp only [resolveScores, List.map_map]
  rfl

theorem rankAndFilterScored_map_idx_nodup (items : List (Keyed T))
    (scores : String → JsVal) (t : ℚ) (hidx : (items.map (·.idx)).Nodup) :
    ((rankAndFilterScored items scores t).map (·.idx)).Nodup := by
  have hperm : (rankAndFilterScored items scores t).Perm
      (((resolveScores items scores).filter (keepScore t)).map toRanked) :=
    List.perm_insertionSort _ _
  have hsub : List.Sublist
      (((resolveScores items scores).filter (keepScore t)).map (·.idx))
      (items.map (·.idx)) := by
    rw [← resolveScores_map_idx items scores]
    exact (List.filter_sublist _).map _
  have heq : (((resolveScores items scores).filter (keepScore t)).map toRanked).map (·.idx)
      = ((resolveScores items scores).filter (keepScore t)).map (·.idx) := by
    rw [List.map_map]
    rfl
  have hnd : ((((resolveScores items scores).filter (keepScore t)).map toRanked).map
      (·.idx)).Nodup := by
    rw [heq]
    exact hsub.nodup hidx
  exact ((hperm.map (·.idx)).nodup_iff).mpr hnd

/-! ## Lemmas about candidate preparation -/

theorem prepareGo_map_idx (ex : Extractors T E) (cands : List T) :
    ∀ (i : ℕ) (l : List (Prepared T)), prepareGo ex i cands = .ok l →
      l.map (·.idx) = List.range' i cands.length := by
  induction cands with
  | nil =>
    intro i l h
    simp only [prepareGo] at h
    cases h
    simp
  | cons c rest ih =>
    intro i l h
    simp only [prepareGo] at h
    split at h
    · cases h
    · split at h
      · cases h
      · split at h
        · cases h
        · cases h
          rename_i r heq
          simp only [List.map_cons, List.length_cons, List.range']
          rw [ih (i + 1) r heq]

theorem prepareCandidates_map_idx (ex : Extractors T E) (cands : List T)
    (l : List (Prepared T)) (h : prepareCandidates ex cands = .ok l) :
    l.map (·.idx) = List.range cands.length := by
  rw [List.range_eq_range']
  exact prepareGo_map_idx ex cands 0 l h

/-- Decompose a list around the element at position `k`. -/
theorem eq_take_cons_drop (l : List α) (k : ℕ) (b : α) (h : l[k]? = some b) :
    l = l.take k ++ b :: l.drop (k + 1) := by
  have hk : k < l.length := by
    by_contra hc
    rw [List.getElem?_eq_none (by omega)] at h
    cases h
  have hb : l[k] = b := by
    have := List.getElem?_eq_getElem hk
    rw [h] at this
    cases this
    rfl
  rw [← hb, ← List.drop_eq_getElem_cons hk, List.take_append_drop]

/-! ## Claim theorems -/

/-- Claim C1: for every query, candidate list and scoring-client behaviour
(including clients that throw or reject, and throwing extractors),
`Reranker.rerank` always resolves: it is a total function whose value is the
try-block's value when no exception escapes, and the original candidate
sequence, unchanged and in input order, whenever any exception escapes the
normal path. -/
theorem rerank_total_and_fallback (ex : Extractors T E) (llm : LlmBehavior T E)
    (cfg : RerankerCfg) (query : String) (cands : List T) :
    (∀ e, rerankBody ex llm cfg query cands = .error e →
      rerank ex llm cfg query cands = cands) ∧
    (∀ r, rerankBody ex llm cfg query cands = .ok r →
      rerank ex llm cfg query cands = r) := by
  constructor
  · intro e h
    simp [rerank, h]
  · intro r h
    simp [rerank, h]

/-- Witness for C1: a key extractor that throws on every item makes the body
of `rerank` throw, and the call returns the input unchanged. -/
theorem rerank_total_and_fallback_witness :
    rerank (⟨fun _ => .error (), none⟩ : Extractors ℕ Unit)
      (fun _ _ => .ok .nullish) ⟨0, 2, 0⟩ "q" [7, 8] = [7, 8] :=
  (rerank_total_and_fallback ⟨fun _ => .error (), none⟩
    (fun _ _ => .ok .nullish) ⟨0, 2, 0⟩ "q" [7, 8]).1 () rfl

/-- Claim C2: in `batchProcess`, a batch whose scoring function rejects
contributes exactly its own items in their original pre-scoring order (the
default error fallback), every other batch's contribution is computed from
that batch alone (the failing batch does not appear in the other terms), and
the final result is the concatenation of all batch contributions in batch
order. -/
theorem batchProcess_isolates_batch_failure
    (items : List I) (s : ℕ) (f : ℚ) (fn : List I → Except E (List I))
    (k : ℕ) (bk : List I) (e : E)
    (hk : (createBatches items s f)[k]? = some bk)
    (hfail : fn bk = .error e) :
    batchContrib fn (fun b _ => b) bk = bk ∧
    batchProcess items s f fn (fun b _ => b) =
      (((createBatches items s f).take k).map (batchContrib fn (fun b _ => b))).flatten
        ++ bk
        ++ (((createBatches items s f).drop (k + 1)).map
              (batchContrib fn (fun b _ => b))).flatten := by
  have hcontrib : batchContrib fn (fun b _ => b) bk = bk := by
    simp [batchContrib, hfail]
  refine ⟨hcontrib, ?_⟩
  unfold batchProcess
  conv_lhs => rw [eq_take_cons_drop _ k bk hk]
  rw [List.map_append, List.map_cons, List.flatten_append, List.flatten_cons, hcontrib,
    List.append_assoc]

/-- Witness for C2: four items in two batches, the scoring function rejecting
exactly on the second batch: the first batch is ranked, the second is
preserved in original order. -/
theorem batchProcess_isolates_batch_failure_witness :
    batchProcess [10, 20, 30, 40] 2 0
      (fun b => if b = [30, 40] then .error () else .ok b.reverse)
      (fun b _ => b) = [20, 10, 30, 40] := by
  have hk : (createBatches [10, 20, 30, 40] 2 0)[1]? = some [30, 40] := by
    simp [createBatches, sliceIntoFixedBatches, mergeTinyFinalBatch]
  have := batchProcess_isolates_batch_failure [10, 20, 30, 40] 2 0
    (fun b => if b = [30, 40] then .error () else .ok b.reverse)
    1 [30, 40] () hk (by simp)
  rw [this.2]
  simp [createBatches, sliceIntoFixedBatches, mergeTinyFinalBatch, batchContrib]

/-- Claim C4: for every list of `n` items and every batch size `s ≥ 1`,
`sliceIntoFixedBatches` returns exactly `⌈n / s⌉ = (n + s - 1) / s` batches,
each of length at most `s`, every batch except possibly the last of length
exactly `s`, and the concatenation of the batches is the original list. -/
theorem sliceIntoFixedBatches_spec (items : List T) (s : ℕ) (hs : 1 ≤ s) :
    (sliceIntoFixedBatches items s).length = (items.length + s - 1) / s ∧
    (∀ b ∈ sliceIntoFixedBatches items s, b.length ≤ s) ∧
    (∀ i b, (sliceIntoFixedBatches items s)[i]? = some b →
      i + 1 < (sliceIntoFixedBatches items s).length → b.length = s) ∧
    (sliceIntoFixedBatches items s).flatten = items := by
  obtain ⟨t, rfl⟩ : ∃ t, s = t + 1 := ⟨s - 1, by omega⟩
  refine ⟨?_, ?_, ?_, sliceIntoFixedBatches_flatten items t⟩
  · have h1 : items.length + (t + 1) - 1 = items.length + t := by omega
    rw [sliceIntoFixedBatches_length, h1]
  · intro b hb
    obtain ⟨i, hi⟩ := List.mem_iff_getElem?.mp hb
    exact (sliceIntoFixedBatches_sizes items t i b hi).1
  · intro i b hb hlt
    exact (sliceIntoFixedBatches_sizes items t i b hb).2 hlt

/-- Witness for C4, at five items and batch size two. -/
theorem sliceIntoFixedBatches_spec_witness :
    (sliceIntoFixedBatches ([0, 1, 2, 3, 4] : List ℕ) 2).flatten = [0, 1, 2, 3, 4] ∧
    (sliceIntoFixedBatches ([0, 1, 2, 3, 4] : List ℕ) 2).length = (5 + 2 - 1) / 2 :=
  ⟨(sliceIntoFixedBatches_spec [0, 1, 2, 3, 4] 2 (by norm_num)).2.2.2,
   (sliceIntoFixedBatches_spec [0, 1, 2, 3, 4] 2 (by norm_num)).1⟩

/-- Claim C10: `ensureUniqueKeys` is a per-element key rewrite: the output has
the same length and order as the input, each output element keeps the input
element's `item`, `idx` and `summary` at the same position, and only the key
may differ from the base key (and then only by the rename). -/
theorem ensureUniqueKeys_frame (batch : List (Prepared T)) :
    (ensureUniqueKeys batch).length = batch.length ∧
    List.Forall₂
      (fun c k => k.item = c.item ∧ k.idx = c.idx ∧ k.summary = c.summary ∧
        (k.key = c.baseKey ∨ k.key = rename c.baseKey c.idx))
      batch (ensureUniqueKeys batch) :=
  ⟨(ensureUniqueKeysGo_forall2 (fun _ => 0) batch).length_eq.symm,
   ensureUniqueKeysGo_forall2 (fun _ => 0) batch⟩

/-- Claim C3: for every call of the engine (prepared candidates carrying the
original indices `0 … n-1`), every batch size ≥ 1 and every tiny fraction in
`[0,1]`, the batches produced by `createBatches` followed by per-batch key
disambiguation contain each original index exactly once across all batches,
in input order: nothing is duplicated or dropped by partitioning, tiny-batch
merging or disambiguation. -/
theorem batching_preserves_indices (ex : Extractors T E) (cands : List T)
    (prepared : List (Prepared T)) (s : ℕ) (f : ℚ)
    (hs : 1 ≤ s) (hf0 : 0 ≤ f) (hf1 : f ≤ 1)
    (hprep : prepareCandidates ex cands = .ok prepared) :
    (((createBatches prepared s f).map ensureUniqueKeys).flatten).map (·.idx)
      = List.range cands.length := by
  have h1 : ∀ bs : List (List (Prepared T)),
      ((bs.map ensureUniqueKeys).flatten).map (·.idx) = bs.flatten.map (·.idx) := by
    intro bs
    induction bs with
    | nil => rfl
    | cons b rest ih =>
      simp only [List.map_cons, List.flatten_cons, List.map_append, ih,
        ensureUniqueKeys_map_idx]
  rw [h1, createBatches_flatten prepared s f hs,
    prepareCandidates_map_idx ex cands prepared hprep]

/-- Witness for C3: three candidates sharing one base key, batch size two. -/
theorem batching_preserves_indices_witness :
    (((createBatches [(⟨5, 0, "K", ""⟩ : Prepared ℕ), ⟨6, 1, "K", ""⟩, ⟨7, 2, "K", ""⟩]
        2 0).map ensureUniqueKeys).flatten).map (·.idx) = List.range 3 :=
  batching_preserves_indices (⟨fun _ => .ok "K", none⟩ : Extractors ℕ Unit)
    [5, 6, 7] [⟨5, 0, "K", ""⟩, ⟨6, 1, "K", ""⟩, ⟨7, 2, "K", ""⟩] 2 0
    (by norm_num) (by norm_num) (by norm_num) rfl

/-- Claim C5: for every batch with pairwise-distinct original indices, every
score map and every threshold in `[0,10]`, `rankAndFilter` returns the items
of the scored-and-sorted list, which is a permutation of exactly those
candidates whose clamped score passes the strict `score > threshold` filter
(each kept element's score being a finite number strictly above the
threshold; a candidate scoring exactly the threshold is excluded), ordered by
clamped score descending with equal scores ordered by strictly increasing
original index. -/
theorem rankAndFilter_spec (items : List (Keyed T)) (scores : String → JsVal)
    (t : ℚ) (ht0 : 0 ≤ t) (ht10 : t ≤ 10)
    (hidx : (items.map (·.idx)).Nodup) :
    rankAndFilter items scores t = (rankAndFilterScored items scores t).map (·.item) ∧
    (rankAndFilterScored items scores t).Perm
      (((resolveScores items scores).filter (keepScore t)).map toRanked) ∧
    (∀ s ∈ (resolveScores items scores).filter (keepScore t),
      s.score = .num (toRanked s).score ∧ t < (toRanked s).score) ∧
    (∀ s : Scored T, s.score = .num t → keepScore t s = false) ∧
    (rankAndFilterScored items scores t).Pairwise
      (fun a b => b.score < a.score ∨ (a.score = b.score ∧ a.idx < b.idx)) := by
  refine ⟨rfl, List.perm_insertionSort _ _, ?_, ?_, ?_⟩
  · intro s hs
    obtain ⟨q, hq, hlt⟩ := filter_keepScore_num items scores t s hs
    refine ⟨?_, ?_⟩
    · rw [hq]
      simp [toRanked, scoreVal, hq]
    · simp [toRanked, scoreVal, hq]
      exact hlt
  · intro s hs
    simp [keepScore, hs, jsLt]
  · have hsorted : (rankAndFilterScored items scores t).Pairwise rankRel :=
      List.sorted_insertionSort rankRel _
    have hnd := rankAndFilterScored_map_idx_nodup items scores t hidx
    have hne : (rankAndFilterScored items scores t).Pairwise
        (fun a b => a.idx ≠ b.idx) := by
      rw [List.Nodup, List.pairwise_map] at hnd
      exact hnd
    refine (hsorted.and hne).imp ?_
    intro a b hab
    rcases hab with ⟨hrel | ⟨heq, hle⟩, hneq⟩
    · exact Or.inl hrel
    · exact Or.inr ⟨heq, lt_of_le_of_ne hle hneq⟩

/-- Witness for C5: the spec's own scenario, scores `{A:10, B:6, C:0}` at
threshold 0. -/
theorem rankAndFilter_spec_witness :
    rankAndFilter [(⟨"A", 0, "A", ""⟩ : Keyed String), ⟨"B", 1, "B", ""⟩, ⟨"C", 2, "C", ""⟩]
        (fun k => if k = "A" then .num 10 else if k = "B" then .num 6
                  else if k = "C" then .num 0 else .undef) 0
      = (rankAndFilterScored
          [(⟨"A", 0, "A", ""⟩ : Keyed String), ⟨"B", 1, "B", ""⟩, ⟨"C", 2, "C", ""⟩]
          (fun k => if k = "A" then .num 10 else if k = "B" then .num 6
                    else if k = "C" then .num 0 else .undef) 0).map (·.item) :=
  (rankAndFilter_spec _ _ 0 (by norm_num) (by norm_num) (by decide)).1

/-- Counterexample to C6 as stated: for a candidate whose key is absent from
the score map, the resolved score built by `rankAndFilter` is
`clamp(undefined, 0, 10) = undefined`, not `0` — JS `<`/`>` comparisons
against `undefined` are `false`, so neither bound is applied. -/
theorem resolveScores_missing_not_zero :
    (resolveScores [(⟨(), 0, "K", ""⟩ : Keyed Unit)] (fun _ => .undef)).map (·.score)
        = [JsVal.undef] ∧
    JsVal.undef ≠ JsVal.num 0 := by
  exact ⟨rfl, by decide⟩

/-- Claim C6, amended: the resolved score is the score-map value clamped into
`[0,10]` — below 0 becomes 0, above 10 becomes 10, `+Infinity` becomes 10,
`-Infinity` becomes 0 — but a missing (`undefined`) or `NaN` value passes
through `clamp` unchanged; such a candidate is then excluded by the strict
filter for every threshold, so its contribution to the output is the same as
that of a score of 0 (for the configured thresholds in `[0,10]`): it is never
kept. -/
theorem clamp_and_missing_score_spec :
    (∀ q : ℚ, q < 0 → clamp (.num q) 0 10 = .num 0) ∧
    (∀ q : ℚ, 10 < q → clamp (.num q) 0 10 = .num 10) ∧
    (∀ q : ℚ, 0 ≤ q → q ≤ 10 → clamp (.num q) 0 10 = .num q) ∧
    clamp .inf 0 10 = .num 10 ∧
    clamp .negInf 0 10 = .num 0 ∧
    clamp .undef 0 10 = .undef ∧
    clamp .nan 0 10 = .nan ∧
    (∀ (t : ℚ) (x : Unit) (i : ℕ),
      keepScore t (⟨x, i, .undef⟩ : Scored Unit) = false ∧
      keepScore t (⟨x, i, .nan⟩ : Scored Unit) = false) := by
  refine ⟨?_, ?_, ?_, by rfl, by rfl, by rfl, by rfl, fun t x i => ⟨rfl, rfl⟩⟩
  · intro q h
    have h2 : ¬ (10 : ℚ) < 0 := by norm_num
    simp [clamp, jsLt, h, h2]
  · intro q h
    have h1 : ¬ q < 0 := by linarith
    simp [clamp, jsLt, h, h1]
  · intro q h0 h10
    have h1 : ¬ q < 0 := by linarith
    have h2 : ¬ (10 : ℚ) < q := by linarith
    simp [clamp, jsLt, h1, h2]

/-- Witness for C6 (amended): `-3` clamps to `0`, `11` clamps to `10`. -/
theorem clamp_and_missing_score_spec_witness :
    clamp (.num (-3)) 0 10 = .num 0 ∧ clamp (.num 11) 0 10 = .num 10 :=
  ⟨clamp_and_missing_score_spec.1 (-3) (by norm_num),
   clamp_and_missing_score_spec.2.1 11 (by norm_num)⟩

/-- Claim C9: the invalid-payload guard in `fetchScores` rejects only nullish
or non-object data.  A non-null object containing none of the batch's keys
(for example `{}`) passes the guard, `rankAndFilter` runs, every candidate
resolves to a missing (`undefined`) score and is excluded, so the batch
contributes the empty list — its items are dropped.  In contrast, a nullish
payload preserves the batch in original order, and a rejection propagates to
`batchProcess`, whose fallback also preserves the batch. -/
theorem processBatch_payload_cases (llm : LlmBehavior T E) (t : ℚ)
    (query : String) (batch : List (Prepared T)) :
    (∀ m, llm query (ensureUniqueKeys batch) = .ok (.obj m) →
      (∀ c ∈ ensureUniqueKeys batch, m c.key = .undef) →
      processBatch llm t query batch = .ok []) ∧
    (llm query (ensureUniqueKeys batch) = .ok .nullish →
      processBatch llm t query batch = .ok ((ensureUniqueKeys batch).map (·.item))) ∧
    (∀ e, llm query (ensureUniqueKeys batch) = .error e →
      processBatch llm t query batch = .error e ∧
      batchContrib (processBatch llm t query) (fun b _ => b.map (·.item)) batch
        = batch.map (·.item)) := by
  refine ⟨?_, ?_, ?_⟩
  · intro m hllm hmiss
    have hfilter : (resolveScores (ensureUniqueKeys batch) m).filter (keepScore t) = [] := by
      rw [List.filter_eq_nil_iff]
      intro s hs
      simp only [resolveScores, List.mem_map] at hs
      obtain ⟨c, hc, rfl⟩ := hs
      rw [hmiss c hc]
      simp [keepScore, clamp, jsLt]
    simp only [processBatch, fetchScores, hllm]
    simp [rankAndFilter, rankAndFilterScored, hfilter]
  · intro hllm
    simp [processBatch, fetchScores, hllm]
  · intro e hllm
    constructor
    · simp [processBatch, fetchScores, hllm]
    · simp [batchContrib, processBatch, fetchScores, hllm]

/-- Witness for C9: two candidates and a client resolving with an empty
object: the batch contributes nothing. -/
theorem processBatch_payload_cases_witness :
    processBatch (fun _ _ => .ok (.obj (fun _ => .undef)) : LlmBehavior ℕ Unit)
      0 "q" [⟨7, 0, "A", ""⟩, ⟨8, 1, "B", ""⟩] = .ok [] :=
  (processBatch_payload_cases _ 0 "q" _).1 (fun _ => .undef) rfl (fun _ _ => rfl)

/-- Counterexample to C8 as stated: `mergeTinyFinalBatch` is not idempotent
on every batch list — on `[[1],[2],[3]]` with threshold 5 one application
merges the last two batches into `[[1],[2,3]]`, and a second application
merges again, giving `[[1,2,3]]`. -/
theorem mergeTinyFinalBatch_not_idempotent :
    mergeTinyFinalBatch (mergeTinyFinalBatch [[1], [2], [3]] 5) 5
      ≠ mergeTinyFinalBatch [[1], [2], [3]] 5 := by
  decide

/-- Claim C8, amended: `mergeTinyFinalBatch` modifies at most the last two
batches, performs at most one merge event per application (the result is the
input, or the input with its last batch folded into its predecessor), and
leaves a batch list of length ≤ 1 unmodified; it is idempotent whenever the
combined length of the last two batches exceeds the threshold when more than
two batches are present (as is the case for the slices produced by
`createBatches`), but not for every batch list. -/
theorem mergeTinyFinalBatch_spec (bs : List (List T)) (t : ℕ) :
    (bs.length ≤ 1 → mergeTinyFinalBatch bs t = bs) ∧
    (mergeTinyFinalBatch bs t).take (bs.length - 2) = bs.take (bs.length - 2) ∧
    (mergeTinyFinalBatch bs t = bs ∨
      ((mergeTinyFinalBatch bs t).length + 1 = bs.length ∧
        mergeTinyFinalBatch bs t
          = bs.dropLast.dropLast
              ++ [bs.dropLast.getLast?.getD [] ++ bs.getLast?.getD []])) ∧
    ((2 < bs.length →
        t < (bs.getLast?.getD []).length + (bs.dropLast.getLast?.getD []).length) →
      mergeTinyFinalBatch (mergeTinyFinalBatch bs t) t = mergeTinyFinalBatch bs t) := by
  rcases lt_or_le bs.length 2 with hshort | hlong
  · have h0 : mergeTinyFinalBatch bs t = bs := mergeTinyFinalBatch_of_short bs t hshort
    refine ⟨fun _ => h0, by rw [h0], Or.inl h0, fun _ => by rw [h0, h0]⟩
  · obtain ⟨xs, p, q, rfl⟩ := exists_concat_two bs hlong
    have h2 : xs ++ [p, q] = (xs ++ [p]) ++ [q] := by simp
    have hg : (xs ++ [p, q]).getLast? = some q := by rw [h2]; exact List.getLast?_concat _
    have hd : (xs ++ [p, q]).dropLast = xs ++ [p] := by rw [h2]; exact List.dropLast_concat
    have hlen2 : (xs ++ [p, q]).length - 2 = xs.length := by simp
    have htk : (xs ++ [p, q]).take xs.length = xs := by
      rw [show xs ++ [p, q] = xs ++ ([p, q]) from rfl]
      exact List.take_left xs [p, q]
    rw [mergeTinyFinalBatch_concat_two]
    by_cases hcond : q.length = 0 ∨ q.length > t
    · rw [if_pos hcond]
      refine ⟨fun h => ?_, rfl, Or.inl rfl, fun _ => ?_⟩
      · simp only [List.length_append, List.length_cons, List.length_nil] at h
        omega
      · rw [mergeTinyFinalBatch_concat_two, if_pos hcond]
    · rw [if_neg hcond]
      push_neg at hcond
      obtain ⟨hq0, hqt⟩ := hcond
      refine ⟨fun h => ?_, ?_, ?_, ?_⟩
      · simp only [List.length_append, List.length_cons, List.length_nil] at h
        omega
      · rw [hlen2, htk]
        rw [show xs ++ [p ++ q] = xs ++ ([p ++ q]) from rfl]
        exact List.take_left xs [p ++ q]
      · refine Or.inr ⟨by simp, ?_⟩
        rw [hg, hd, List.dropLast_concat, List.getLast?_concat]
        rfl
      · intro hyp
        rcases List.eq_nil_or_concat' xs with hnil | ⟨ys, r, rfl⟩
        · subst hnil
          exact mergeTinyFinalBatch_of_short _ t (by simp)
        · have hbig : t < q.length + p.length := by
            rw [hg, hd] at hyp
            simp only [Option.getD_some, List.getLast?_concat] at hyp
            exact hyp (by simp only [List.length_append, List.length_cons,
              List.length_nil]; omega)
          have hsplit : (ys ++ [r]) ++ [p ++ q] = ys ++ [r, p ++ q] := by simp
          rw [hsplit, mergeTinyFinalBatch_concat_two,
            if_pos (Or.inr (by simp only [List.length_append]; omega))]

/-- Witness for C8 (amended): with threshold 1, `[[1,2],[3,4],[5]]` merges to
`[[1,2],[3,4,5]]`, whose last batch is no longer tiny, so a second
application changes nothing. -/
theorem mergeTinyFinalBatch_spec_witness :
    mergeTinyFinalBatch (mergeTinyFinalBatch [[1, 2], [3, 4], [5]] 1) 1
      = mergeTinyFinalBatch [[1, 2], [3, 4], [5]] 1 :=
  (mergeTinyFinalBatch_spec [[1, 2], [3, 4], [5]] 1).2.2.2 (fun _ => by decide)

/-- Key uniqueness for `ensureUniqueKeys`, under the hypotheses that original
indices are pairwise distinct, that no base key collides with a renamed key,
and that renames of distinct (base key, index) pairs are distinct. -/
theorem ensureUniqueKeys_nodup_of (batch : List (Prepared T))
    (hidx : (batch.map (·.idx)).Nodup)
    (hbase : ∀ x ∈ batch, ∀ y ∈ batch, x.baseKey ≠ rename y.baseKey y.idx)
    (hren : ∀ x ∈ batch, ∀ y ∈ batch,
      rename x.baseKey x.idx = rename y.baseKey y.idx →
        x.baseKey = y.baseKey ∧ x.idx = y.idx) :
    ((ensureUniqueKeys batch).map (·.key)).Nodup := by
  have hlen : (ensureUniqueKeys batch).length = batch.length :=
    (ensureUniqueKeysGo_forall2 (fun _ => 0) batch).length_eq.symm
  have hkey : ∀ (i : ℕ) (hi : i < batch.length) (hi2 : i < (ensureUniqueKeys batch).length),
      (ensureUniqueKeys batch)[i] =
        ⟨batch[i].item, batch[i].idx,
          if (batch.take i).countP (fun d => decide (d.baseKey = batch[i].baseKey)) = 0
          then batch[i].baseKey else rename batch[i].baseKey batch[i].idx,
          batch[i].summary⟩ := by
    intro i hi hi2
    have hf := ensureUniqueKeys_getElem batch i
    rw [List.getElem?_eq_getElem hi] at hf
    rw [List.getElem?_eq_getElem hi2] at hf
    exact Option.some.inj hf
  have hidx2 : ∀ (i j : ℕ) (hi : i < batch.length) (hj : j < batch.length),
      i < j → batch[i].idx ≠ batch[j].idx := by
    rw [List.Nodup, List.pairwise_iff_getElem] at hidx
    intro i j hi hj hlt
    have := hidx i j (by simpa using hi) (by simpa using hj) hlt
    simpa using this
  rw [List.Nodup, List.pairwise_iff_getElem]
  intro i j hi hj hlt
  simp only [List.length_map] at hi hj
  have hib : i < batch.length := by omega
  have hjb : j < batch.length := by omega
  rw [List.getElem_map, List.getElem_map, hkey i hib (by omega), hkey j hjb (by omega)]
  intro heq
  simp only at heq
  have hmi : batch[i] ∈ batch := List.getElem_mem hib
  have hmj : batch[j] ∈ batch := List.getElem_mem hjb
  split_ifs at heq with h1 h2 h2
  · -- both first occurrences of their base key, which `heq` makes equal;
    -- but then position i is an earlier occurrence counted at position j
    have hmem : batch[i] ∈ batch.take j := by
      have htl : i < (batch.take j).length := by
        rw [List.length_take]
        omega
      have hgt : (batch.take j)[i] = batch[i] := List.getElem_take (L := batch)
      rw [← hgt]
      exact List.getElem_mem htl
    have hpos : 0 < (batch.take j).countP (fun d => decide (d.baseKey = batch[j].baseKey)) := by
      rw [List.countP_pos_iff]
      exact ⟨batch[i], hmem, by simp [heq]⟩
    omega
  · exact hbase batch[i] hmi batch[j] hmj heq
  · exact hbase batch[j] hmj batch[i] hmi heq.symm
  · have := hren batch[i] hmi batch[j] hmj heq
    exact hidx2 i j hib hjb hlt this.2

/-- Counterexample to C7 as stated: on base keys `"A", "A", "A (1)"` at
indices 0, 1, 2, the second `"A"` is renamed to `"A (1)"`, which collides
with the third candidate's own base key, so the resulting keys are not
pairwise distinct. -/
theorem ensureUniqueKeys_duplicate_keys :
    (ensureUniqueKeys [(⟨(), 0, "A", ""⟩ : Prepared Unit), ⟨(), 1, "A", ""⟩,
        ⟨(), 2, "A (1)", ""⟩]).map (·.key) = ["A", "A (1)", "A (1)"] ∧
    ¬ ((ensureUniqueKeys [(⟨(), 0, "A", ""⟩ : Prepared Unit), ⟨(), 1, "A", ""⟩,
        ⟨(), 2, "A (1)", ""⟩]).map (·.key)).Nodup := by
  constructor
  · decide
  · decide

/-- Claim C7, amended: within every batch, the first occurrence of a base key
keeps the bare base key and the n-th occurrence (n ≥ 2) is renamed to
`"{baseKey} ({index})"` using the candidate's original global index (not its
batch position); the resulting keys are pairwise distinct provided the
original indices are distinct and base keys do not collide with renamed keys
(no base key equals the rename of any candidate, and renames of distinct
(base key, index) pairs differ — both automatic for well-behaved key sets,
but violated e.g. by a literal base key `"A (1)"`). -/
theorem ensureUniqueKeys_spec (batch : List (Prepared T))
    (hidx : (batch.map (·.idx)).Nodup)
    (hbase : ∀ x ∈ batch, ∀ y ∈ batch, x.baseKey ≠ rename y.baseKey y.idx)
    (hren : ∀ x ∈ batch, ∀ y ∈ batch,
      rename x.baseKey x.idx = rename y.baseKey y.idx →
        x.baseKey = y.baseKey ∧ x.idx = y.idx) :
    (∀ (p : ℕ) (c : Prepared T), batch[p]? = some c →
      (ensureUniqueKeys batch)[p]? = some
        ⟨c.item, c.idx,
          if (batch.take p).countP (fun d => decide (d.baseKey = c.baseKey)) = 0
          then c.baseKey else rename c.baseKey c.idx,
          c.summary⟩) ∧
    ((ensureUniqueKeys batch).map (·.key)).Nodup := by
  refine ⟨?_, ensureUniqueKeys_nodup_of batch hidx hbase hren⟩
  intro p c hc
  rw [ensureUniqueKeys_getElem, hc]
  rfl

/-- Witness for C7 (amended): a duplicated base key `"A"` at indices 0 and 1
renames the second occurrence to `"A (1)"`, and the keys are distinct. -/
theorem ensureUniqueKeys_spec_witness :
    ((ensureUniqueKeys [(⟨(), 0, "A", ""⟩ : Prepared Unit),
        ⟨(), 1, "A", ""⟩]).map (·.key)).Nodup :=
  (ensureUniqueKeys_spec [⟨(), 0, "A", ""⟩, ⟨(), 1, "A", ""⟩]
    (by decide) (by decide) (by decide)).2

end Intent
